import Mathlib

/-!
Shallow embedding of the LocustDB execution-core slice:
`src/mem_store/integers.rs` (adaptive integer encoding and the integer
offset codec) and `src/engine/query.rs` (query orchestration).

Rust `i64` arithmetic is modelled over `Int`; the two's-complement
wrap-around of 64-bit subtraction/addition is made explicit through
`wrap64`.  Fallible operations (the `Option`-returning narrowing
conversion `T::from` followed by `.unwrap()`, and the `panic!` branch in
`Query::run`) are modelled with `Option`, where `none` stands for a
panic of the original program.

Collaborators that live outside the two source files (the query planner,
`TypedVec`, the `Column` constructors, `grouping`) are modelled from the
specification; each such definition carries a doc comment saying so.
-/

namespace LocustDB

def i64Min : Int := -(2 ^ 63)

def i64Max : Int := 2 ^ 63 - 1

/-- Two's-complement wrap-around of 64-bit signed arithmetic results
(release-mode Rust semantics for `i64` overflow). -/
def wrap64 (x : Int) : Int := (x + 2 ^ 63) % 2 ^ 64 - 2 ^ 63

/-- Raw logical value (`ingest::raw_val::RawVal`).
Modelled from the spec: the raw-value type is external to the slice; only
the integer constructor is exercised by the codec. -/
inductive RawVal where
  | Int (v : Int)
  | Str (s : String)
  | Null
deriving DecidableEq

/-- True exactly on the integer constructor of `RawVal`. -/
def RawVal.isInt : RawVal → Bool
  | RawVal.Int _ => true
  | _ => false

/-- The unsigned widths an `IntegerColumn` can encode into
(the `u8`/`u16`/`u32` instantiations of the codec's type parameter). -/
inductive Width where
  | U8
  | U16
  | U32
deriving DecidableEq

/-- Largest value representable in the width. -/
def Width.maxVal : Width → Int
  | Width.U8 => 255
  | Width.U16 => 65535
  | Width.U32 => 4294967295

/-- The narrowing conversion `T::from(x) : Option<T>` used by
`IntegerColumn::encode`: succeeds exactly when `x` fits the unsigned
width. -/
def Width.fromI64 (w : Width) (x : Int) : Option Nat :=
  if 0 ≤ x ∧ x ≤ w.maxVal then some x.toNat else none

/-- `IntegerOffsetCodec<T>` from `src/mem_store/integers.rs`: the codec
carries the offset subtracted at encoding time. -/
structure IntegerOffsetCodec where
  offset : Int
deriving DecidableEq

def IntegerOffsetCodec.new (offset : Int) : IntegerOffsetCodec :=
  { offset := offset }

/-- `encode_int`: encodes a logical literal into the encoded domain by
subtracting the offset.  The source performs no range check (its TODO
comment acknowledges the underflow question). -/
def IntegerOffsetCodec.encode_int (c : IntegerOffsetCodec) (val : Int) : RawVal :=
  RawVal.Int (wrap64 (val - c.offset))

/-- Decoding of a single encoded cell: `value.to_i64().unwrap() + self.offset`
from the loop body of `unwrap_decode`. -/
def IntegerOffsetCodec.decodeVal (c : IntegerOffsetCodec) (x : Int) : Int :=
  wrap64 (x + c.offset)

/-- `unwrap_decode`: adds the offset back to every encoded value. -/
def IntegerOffsetCodec.unwrap_decode (c : IntegerOffsetCodec) (data : List Nat) : List Int :=
  data.map (fun (v : Nat) => c.decodeVal (v : Int))

def IntegerOffsetCodec.is_summation_preserving (c : IntegerOffsetCodec) : Bool :=
  c.offset == 0

def IntegerOffsetCodec.is_order_preserving (_ : IntegerOffsetCodec) : Bool :=
  true

def IntegerOffsetCodec.is_positive_integer (_ : IntegerOffsetCodec) : Bool :=
  true

/-- `decode_range`: translates an encoded range to the logical domain by
adding the offset to both bounds. -/
def IntegerOffsetCodec.decode_range (c : IntegerOffsetCodec) (r : Int × Int) : Option (Int × Int) :=
  some (wrap64 (r.1 + c.offset), wrap64 (r.2 + c.offset))

/-- A built column.
Modelled from the spec: the `Column::encoded` / `Column::plain`
constructors live in `mem_store::column`, outside the slice; per the spec
a column is a name together with either an encoded buffer plus its codec,
or plain values, plus a known range. -/
inductive Column where
  | encoded (name : String) (w : Width) (data : List Nat)
      (codec : IntegerOffsetCodec) (range : Option (Int × Int))
  | plain (name : String) (data : List Int) (range : Option (Int × Int))
deriving DecidableEq

/-- `IntegerColumn::encode::<T>`: subtracts the offset from every value and
narrows to `T`; `none` models the `unwrap` panic on a value that does not
fit. -/
def IntegerColumn.encode (w : Width) (values : List Int) (offset : Int) : Option (List Nat) :=
  values.mapM (fun v => w.fromI64 (wrap64 (v - offset)))

/-- `IntegerColumn::new_boxed`: adaptive width selection from the
precomputed `(min, max)` bounds. -/
def IntegerColumn.new_boxed (name : String) (values : List Int) (min max : Int) :
    Option Column :=
  let range : Option (Int × Int) := some (0, wrap64 (max - min))
  if wrap64 (max - min) ≤ 255 then
    (IntegerColumn.encode Width.U8 values min).map
      (fun d => Column.encoded name Width.U8 d (IntegerOffsetCodec.new min) range)
  else if wrap64 (max - min) ≤ 65535 then
    (IntegerColumn.encode Width.U16 values min).map
      (fun d => Column.encoded name Width.U16 d (IntegerOffsetCodec.new min) range)
  else if wrap64 (max - min) ≤ 4294967295 then
    (IntegerColumn.encode Width.U32 values min).map
      (fun d => Column.encoded name Width.U32 d (IntegerOffsetCodec.new min) range)
  else
    some (Column.plain name values (some (min, max)))

/-- Function applications in expression trees (`parser::expression::FuncType`).
Modelled from the spec: the parser is an external collaborator; only the
shape of the tree matters to the slice. -/
inductive FuncType where
  | Equals
  | LT
  | GT
  | And
  | Or
deriving DecidableEq

/-- Expression trees (`parser::expression::Expr`).
Modelled from the spec: a column reference, a literal, or a function
application. -/
inductive Expr where
  | ColName (name : String)
  | Const (v : RawVal)
  | Func (ft : FuncType) (l r : Expr)
deriving DecidableEq

/-- The `Aggregator` enumeration. Modelled from the spec: closed enum
with `Count` and `Sum`. -/
inductive Aggregator where
  | Count
  | Sum
deriving DecidableEq

/-- `parser::limit::LimitClause`. Modelled from the spec: a limit and an
offset. -/
structure LimitClause where
  limit : Nat
  offset : Nat
deriving DecidableEq

/-- Runtime-tagged columnar buffer (`engine::typed_vec::TypedVec`).
Modelled from the spec: a closed set of physical representations; the
slice exercises the boolean mask and logical-integer representations, and
an empty representation stands in for all remaining kinds. -/
inductive TypedVec where
  | Boolean (b : List Bool)
  | Ints (xs : List Int)
  | Empty
deriving DecidableEq

/-- True exactly on the boolean-mask representation. -/
def TypedVec.isBoolean : TypedVec → Bool
  | TypedVec.Boolean _ => true
  | _ => false

/-- `TypedVec::decode`. Modelled from the spec: applies the owning codec
to produce the logical value sequence (identity on plain values). -/
def decodeTv : TypedVec → List Int
  | TypedVec.Boolean bs => bs.map (fun b => if b then 1 else 0)
  | TypedVec.Ints xs => xs
  | TypedVec.Empty => []

/-- `TypedVec::order_preserving`. Modelled from the spec: a cheap
reinterpretation safe to sort without decoding, valid because every codec
in the slice is order-preserving; on the modelled representations it
coincides with the logical values. -/
def orderPreservingTv : TypedVec → List Int
  | TypedVec.Boolean bs => bs.map (fun b => if b then 1 else 0)
  | TypedVec.Ints xs => xs
  | TypedVec.Empty => []

/-- `TypedVec::sort_indices_asc`. Modelled from the spec: stable
ascending sort of the index list by the key at each index (insertion
sort is stable: equal keys retain original relative order). -/
def sortIndicesAsc (keys : List Int) (indices : List Nat) : List Nat :=
  indices.insertionSort (fun a b => keys.getD a 0 ≤ keys.getD b 0)

/-- `TypedVec::sort_indices_desc`. Modelled from the spec: stable
descending sort of the index list by the key at each index. -/
def sortIndicesDesc (keys : List Int) (indices : List Nat) : List Nat :=
  indices.insertionSort (fun a b => keys.getD b 0 ≤ keys.getD a 0)

/-- Index-based gather over a logical value sequence. -/
def indexDecodeL (xs : List Int) (indices : List Nat) : List Int :=
  indices.map (fun i => xs.getD i 0)

/-- `TypedVec::index_decode`. Modelled from the spec: applies a given
row-position sequence, in the order given, then decodes. -/
def indexDecodeTv (tv : TypedVec) (indices : List Nat) : List Int :=
  indexDecodeL (decodeTv tv) indices

/-- `engine::filter::Filter`: no restriction, a boolean mask, or an
explicit ordered index list. -/
inductive Filter where
  | None
  | BitVec (bv : List Bool)
  | Indices (indices : List Nat)
deriving DecidableEq

/-- Compilation plus execution of one expression under column bindings
and the active filter (`QueryPlan::create_query_plan` followed by
`query_plan::prepare` and `.execute`).
Modelled from the spec: the plan compiler and executor are outside the
slice, so `Query::run` is analysed for every such function; the column
bindings are closed over by the function. -/
abbrev EvalFn := Expr → Filter → TypedVec

/-- The filter derivation in `Query::run` / `Query::run_aggregate`:
a boolean execution result becomes a `BitVec` filter, every other result
kind degrades to no restriction. -/
def deriveFilter : TypedVec → Filter
  | TypedVec.Boolean b => Filter.BitVec b
  | _ => Filter.None

/-- The candidate row positions for the order-by sort in `Query::run`:
positions included by a `BitVec` filter (via `enumerate`/`filter`/`map`),
or the full row range under no restriction.  The `Indices` variant hits
the `panic!` branch, modelled by `none`. -/
def candidateIndices : Filter → Nat → Option (List Nat)
  | Filter.BitVec bv, _ =>
      some ((bv.enum.filter (fun p => p.2)).map (fun p => p.1))
  | Filter.None, n => some (List.range n)
  | Filter.Indices _, _ => none

/-- `BatchResult` (`engine::batch_merging`). Modelled from the spec:
optional group-by column, optional sort-by column index, decoded result
columns, the aggregators used, and the merge bookkeeping fields. -/
structure BatchResult where
  group_by : Option (List Int)
  sort_by : Option Nat
  select : List (List Int)
  aggregators : List Aggregator
  level : Nat
  batch_count : Nat
deriving DecidableEq

/-- The `Query` request model. -/
structure Query where
  select : List Expr
  table : String
  filter : Expr
  aggregate : List (Aggregator × Expr)
  order_by : Option String
  order_desc : Bool
  limit : LimitClause
  order_by_index : Option Nat
deriving DecidableEq

/-- Step 2 of `Query::run`: when an order-by index is set, compute the
sorted, truncated position list and replace the filter by an `Indices`
filter; `none` models a panic (out-of-bounds `self.select[index]` or the
impossible-filter branch). -/
def Query.finalFilter (eval : EvalFn) (q : Query) (filt : Filter) : Option Filter :=
  match q.order_by_index with
  | none => some filt
  | some index =>
    (q.select[index]?).bind (fun sexpr =>
      let sort_column := orderPreservingTv (eval sexpr filt)
      (candidateIndices filt sort_column.length).map (fun cands =>
        let sorted :=
          if q.order_desc then sortIndicesDesc sort_column cands
          else sortIndicesAsc sort_column cands
        Filter.Indices (sorted.take (q.limit.limit + q.limit.offset))))

/-- The body of `Query::run` once the filter has been derived: compute
the final filter, then compile, execute and decode every select
expression under it. -/
def Query.runWith (eval : EvalFn) (q : Query) (filt : Filter) : Option BatchResult :=
  (q.finalFilter eval filt).map (fun f =>
    { group_by := none
      sort_by := q.order_by_index
      select := q.select.map (fun e => decodeTv (eval e f))
      aggregators := []
      level := 0
      batch_count := 1 })

/-- `Query::run`: derive the filter from the executed filter expression,
then run the projection body. -/
def Query.run (eval : EvalFn) (q : Query) : Option BatchResult :=
  q.runWith eval (deriveFilter (eval q.filter Filter.None))

/-- Joint compilation plus execution of the composite grouping key
(`QueryPlan::compile_grouping_key`).  Modelled from the spec: external to
the slice, hence abstract. -/
abbrev GroupKeyFn := List Expr → Filter → TypedVec

/-- `grouping`: partitions rows by identical composite key.  Modelled
from the spec: returns the per-row group id, the maximum group id, and
the distinct group key values in first-seen order; external to the
slice, hence abstract. -/
abbrev GroupingFn := TypedVec → List Nat × Nat × TypedVec

/-- Compilation plus execution of one aggregation
(`query_plan::prepare_aggregation` followed by `.execute`): aggregator,
expression, per-row group ids, maximum group id, active filter.
Modelled from the spec: external to the slice, hence abstract. -/
abbrev AggEvalFn := Aggregator → Expr → List Nat → Nat → Filter → TypedVec

/-- The body of `Query::run_aggregate` once the filter has been derived:
compute the grouping, sort the distinct group values, and gather-decode
the group-by column and every aggregate output with the same sort
permutation. -/
def Query.runAggregateWith (evalGK : GroupKeyFn) (aggEval : AggEvalFn)
    (groupingFn : GroupingFn) (q : Query) (filt : Filter) : BatchResult :=
  let gkey := evalGK q.select filt
  let g := groupingFn gkey
  let groupIds := g.1
  let max_index := g.2.1
  let groups := orderPreservingTv g.2.2
  let grouping_sort_indices := sortIndicesAsc groups (List.range groups.length)
  { group_by := some (indexDecodeL groups grouping_sort_indices)
    sort_by := none
    select := q.aggregate.map (fun p =>
      indexDecodeTv (aggEval p.1 p.2 groupIds max_index filt) grouping_sort_indices)
    aggregators := q.aggregate.map (fun p => p.1)
    level := 0
    batch_count := 1 }

/-- `Query::run_aggregate`: derive the filter from the executed filter
expression, then run the aggregation body. -/
def Query.run_aggregate (eval : EvalFn) (evalGK : GroupKeyFn) (aggEval : AggEvalFn)
    (groupingFn : GroupingFn) (q : Query) : BatchResult :=
  q.runAggregateWith evalGK aggEval groupingFn
    (deriveFilter (eval q.filter Filter.None))

/-- `Query::is_select_star`. -/
def Query.is_select_star (q : Query) : Bool :=
  match q.select with
  | [Expr.ColName name] => name == "*"
  | _ => false

/-- The select half of `result_column_names`: a plain column reference
keeps its name, every other expression receives `col_<k>` from a counter
that starts at `-1` and is incremented before use. -/
def selectColNames : List Expr → Int → List String
  | [], _ => []
  | Expr.ColName n :: rest, k => n :: selectColNames rest k
  | _ :: rest, k => ("col_" ++ toString (k + 1)) :: selectColNames rest (k + 1)

/-- The aggregate half of `result_column_names`: every aggregate receives
`count_<k>` or `sum_<k>` from a counter that starts at `-1` and is
incremented once per pair. -/
def aggColNames : List (Aggregator × Expr) → Int → List String
  | [], _ => []
  | (agg, _) :: rest, k =>
    (match agg with
     | Aggregator.Count => "count_" ++ toString (k + 1)
     | Aggregator.Sum => "sum_" ++ toString (k + 1)) :: aggColNames rest (k + 1)

/-- `Query::result_column_names`. -/
def Query.result_column_names (q : Query) : List String :=
  selectColNames q.select (-1) ++ aggColNames q.aggregate (-1)

/-- True exactly on plain column references; used to phrase the naming
claim. -/
def Expr.isColName : Expr → Bool
  | Expr.ColName _ => true
  | _ => false

/-- Number of anonymous (non-column-reference) expressions in a list;
used to phrase the naming claim. -/
def anonCount (es : List Expr) : Nat :=
  (es.filter (fun e => !e.isColName)).length

/-! ### Concrete instances used to witness the theorems -/

/-- A concrete column of ages. -/
def ageColumn : List Int := [10, 20, 30, 40]

/-- A concrete evaluation function over the single column `age`:
a column reference reads the column (gathered under an `Indices` filter),
anything else yields the empty representation. -/
def evalAge : EvalFn := fun e f =>
  match e with
  | Expr.ColName _ =>
    match f with
    | Filter.Indices idx => TypedVec.Ints (indexDecodeL ageColumn idx)
    | _ => TypedVec.Ints ageColumn
  | _ => TypedVec.Empty

/-- A concrete query: `SELECT age ORDER BY age DESC LIMIT 2`. -/
def qOrderDesc : Query :=
  { select := [Expr.ColName "age"]
    table := "default"
    filter := Expr.Const (RawVal.Int 1)
    aggregate := []
    order_by := some "age"
    order_desc := true
    limit := { limit := 2, offset := 0 }
    order_by_index := some 0 }

/-- A concrete flat query without an order-by clause. -/
def qFlat : Query :=
  { select := [Expr.ColName "age"]
    table := "default"
    filter := Expr.Const (RawVal.Int 1)
    aggregate := []
    order_by := none
    order_desc := false
    limit := { limit := 100, offset := 0 }
    order_by_index := none }

/-- A concrete aggregation query: `SELECT region, SUM(v) GROUP BY region`. -/
def qAggEx : Query :=
  { select := [Expr.ColName "region"]
    table := "default"
    filter := Expr.Const (RawVal.Int 1)
    aggregate := [(Aggregator.Sum, Expr.ColName "v")]
    order_by := none
    order_desc := false
    limit := { limit := 100, offset := 0 }
    order_by_index := none }

/-- A concrete grouping-key evaluation (three rows, keys 5, 3, 5). -/
def evalGKEx : GroupKeyFn := fun _ _ => TypedVec.Ints [5, 3, 5]

/-- A concrete grouping outcome: group ids `[0, 1, 0]`, max id 1,
distinct keys `[5, 3]` in first-seen order. -/
def groupingEx : GroupingFn := fun _ => ([0, 1, 0], 1, TypedVec.Ints [5, 3])

/-- A concrete per-group aggregation outcome (per-group sums `[4, 2]` in
group-id order). -/
def aggEvalEx : AggEvalFn := fun _ _ _ _ _ => TypedVec.Ints [4, 2]

/-- The select/aggregate lists of the naming example from the spec. -/
def qNames : Query :=
  { select := [Expr.ColName "a", Expr.Const (RawVal.Int 1), Expr.ColName "b"]
    table := "default"
    filter := Expr.Const (RawVal.Int 1)
    aggregate := [(Aggregator.Count, Expr.ColName "x"), (Aggregator.Sum, Expr.ColName "y")]
    order_by := none
    order_desc := false
    limit := { limit := 100, offset := 0 }
    order_by_index := none }

/-! ### Supporting lemmas -/

/-- On values inside the signed 64-bit range, `wrap64` is the identity. -/
theorem wrap64_of_bounds {x : Int} (h1 : -(2 ^ 63) ≤ x) (h2 : x < 2 ^ 63) :
    wrap64 x = x := by
  unfold wrap64
  have h3 : 0 ≤ x + 2 ^ 63 := by omega
  have h4 : x + 2 ^ 63 < 2 ^ 64 := by omega
  rw [Int.emod_eq_of_lt h3 h4]
  omega

/-- Every modelled width fits in the signed 64-bit range. -/
theorem Width.maxVal_lt {w : Width} : w.maxVal < 2 ^ 63 := by
  cases w <;> decide

/-- `IntegerColumn::encode` succeeds and stores `v - offset` when every
value fits the width. -/
theorem encode_eq_map {w : Width} {values : List Int} {offset : Int}
    (h : ∀ v ∈ values, 0 ≤ v - offset ∧ v - offset ≤ w.maxVal) :
    IntegerColumn.encode w values offset =
      some (values.map (fun v => (v - offset).toNat)) := by
  induction values with
  | nil => rfl
  | cons a t ih =>
    obtain ⟨ha1, ha2⟩ := h a (List.mem_cons_self a t)
    have hm : w.maxVal < 2 ^ 63 := Width.maxVal_lt
    have hwr : wrap64 (a - offset) = a - offset := by
      apply wrap64_of_bounds <;> omega
    have ht := ih (fun v hv => h v (List.mem_cons_of_mem a hv))
    unfold IntegerColumn.encode at ht ⊢
    rw [List.mapM_cons, ht]
    simp [Width.fromI64, hwr, ha1, ha2]

/-- `IntegerColumn::encode` panics when some value does not fit the
width. -/
theorem encode_eq_none {w : Width} {values : List Int} {offset : Int} {v : Int}
    (hv : v ∈ values)
    (hbad : ¬(0 ≤ wrap64 (v - offset) ∧ wrap64 (v - offset) ≤ w.maxVal)) :
    IntegerColumn.encode w values offset = none := by
  induction values with
  | nil => cases hv
  | cons a t ih =>
    rcases List.mem_cons.mp hv with hva | hvt
    · subst hva
      unfold IntegerColumn.encode
      rw [List.mapM_cons]
      simp [Width.fromI64, hbad]
    · have ht := ih hvt
      unfold IntegerColumn.encode at ht ⊢
      rw [List.mapM_cons, ht]
      cases hfa : w.fromI64 (wrap64 (a - offset)) <;> simp

/-- Case analysis of `new_boxed`: the width selected by each bound
condition, the stored offsets, and the codec offset. -/
theorem new_boxed_width_cases (name : String) (values : List Int) (min max : Int)
    (h1 : i64Min ≤ max - min) (h2 : max - min ≤ i64Max) :
    ((∀ v ∈ values, min ≤ v ∧ v ≤ max) → max - min ≤ 255 →
      IntegerColumn.new_boxed name values min max =
        some (Column.encoded name Width.U8 (values.map (fun v => (v - min).toNat))
          (IntegerOffsetCodec.new min) (some (0, max - min))))
    ∧ ((∀ v ∈ values, min ≤ v ∧ v ≤ max) → 255 < max - min → max - min ≤ 65535 →
      IntegerColumn.new_boxed name values min max =
        some (Column.encoded name Width.U16 (values.map (fun v => (v - min).toNat))
          (IntegerOffsetCodec.new min) (some (0, max - min))))
    ∧ ((∀ v ∈ values, min ≤ v ∧ v ≤ max) → 65535 < max - min → max - min ≤ 4294967295 →
      IntegerColumn.new_boxed name values min max =
        some (Column.encoded name Width.U32 (values.map (fun v => (v - min).toNat))
          (IntegerOffsetCodec.new min) (some (0, max - min))))
    ∧ (4294967295 < max - min →
      IntegerColumn.new_boxed name values min max =
        some (Column.plain name values (some (min, max)))) := by
  have hwr : wrap64 (max - min) = max - min := by
    apply wrap64_of_bounds
    · simpa [i64Min] using h1
    · have : i64Max < 2 ^ 63 := by decide
      omega
  refine ⟨?_, ?_, ?_, ?_⟩
  · intro h3 hb
    have henc : IntegerColumn.encode Width.U8 values min =
        some (values.map (fun v => (v - min).toNat)) := by
      apply encode_eq_map
      intro v hv
      obtain ⟨hv1, hv2⟩ := h3 v hv
      simp only [Width.maxVal]
      omega
    simp [IntegerColumn.new_boxed, hwr, hb, henc]
  · intro h3 hb1 hb2
    have henc : IntegerColumn.encode Width.U16 values min =
        some (values.map (fun v => (v - min).toNat)) := by
      apply encode_eq_map
      intro v hv
      obtain ⟨hv1, hv2⟩ := h3 v hv
      simp only [Width.maxVal]
      omega
    simp [IntegerColumn.new_boxed, hwr, hb2, henc, not_le.mpr hb1]
  · intro h3 hb1 hb2
    have henc : IntegerColumn.encode Width.U32 values min =
        some (values.map (fun v => (v - min).toNat)) := by
      apply encode_eq_map
      intro v hv
      obtain ⟨hv1, hv2⟩ := h3 v hv
      simp only [Width.maxVal]
      omega
    have hn1 : ¬ max - min ≤ 255 := by omega
    have hn2 : ¬ max - min ≤ 65535 := by omega
    simp [IntegerColumn.new_boxed, hwr, hb2, henc, hn1, hn2]
  · intro hb
    have hn1 : ¬ max - min ≤ 255 := by omega
    have hn2 : ¬ max - min ≤ 65535 := by omega
    have hn3 : ¬ max - min ≤ 4294967295 := by omega
    simp [IntegerColumn.new_boxed, hwr, hn1, hn2, hn3]

/-- In a strictly increasing list, any two members in order form a
two-element sublist. -/
theorem pair_sublist_of_pairwise_lt {l : List Nat} {x y : Nat}
    (hl : l.Pairwise (· < ·)) (hx : x ∈ l) (hy : y ∈ l) (hxy : x < y) :
    List.Sublist [x, y] l := by
  induction l with
  | nil => cases hx
  | cons c t ih =>
    rw [List.pairwise_cons] at hl
    rcases List.mem_cons.mp hx with hxc | hxt
    · subst hxc
      rcases List.mem_cons.mp hy with hyc | hyt
      · omega
      · exact List.Sublist.cons₂ x (List.singleton_sublist.mpr hyt)
    · rcases List.mem_cons.mp hy with hyc | hyt
      · have := hl.1 x hxt
        omega
      · exact List.Sublist.cons c (ih hl.2 hxt hyt)

/-- A duplicate-free list cannot contain both `[a, b]` and `[b, a]` as
sublists unless `a = b`. -/
theorem sublist_pair_antisymm {α : Type _} {l : List α} {a b : α}
    (hnd : l.Nodup) (h1 : List.Sublist [a, b] l) (h2 : List.Sublist [b, a] l) :
    a = b := by
  induction l with
  | nil => simp at h1
  | cons c t ih =>
    rw [List.nodup_cons] at hnd
    cases h1 with
    | cons _ h1t =>
      cases h2 with
      | cons _ h2t => exact ih hnd.2 h1t h2t
      | cons₂ _ h2t =>
        exact absurd (h1t.subset (List.mem_cons_of_mem a (List.mem_singleton.mpr rfl)))
          hnd.1
    | cons₂ _ h1t =>
      cases h2 with
      | cons _ h2t =>
        exact absurd (h2t.subset (List.mem_cons_of_mem b (List.mem_singleton.mpr rfl)))
          hnd.1
      | cons₂ _ h2t => rfl

/-- Stability of insertion sort over a strictly increasing index list:
the output is ordered by the relation, and ties keep ascending index
order (that is, original relative order). -/
theorem insertionSort_pairwise_stable (r : Nat → Nat → Prop) [DecidableRel r]
    [IsTotal Nat r] [IsTrans Nat r]
    (l : List Nat) (hl : l.Pairwise (· < ·)) :
    (l.insertionSort r).Pairwise (fun a b => r a b ∧ (r b a → a < b)) := by
  have hndl : l.Nodup := hl.imp (fun h => Nat.ne_of_lt h)
  have hnd : (l.insertionSort r).Nodup :=
    ((List.perm_insertionSort r l).nodup_iff).mpr hndl
  have hsorted : (l.insertionSort r).Pairwise r := List.sorted_insertionSort r l
  rw [List.pairwise_iff_forall_sublist]
  intro a b hab
  have hrab : r a b := List.pairwise_iff_forall_sublist.mp hsorted hab
  refine ⟨hrab, ?_⟩
  intro hba
  have hamem : a ∈ l := (List.mem_insertionSort r).mp (hab.subset (by simp))
  have hbmem : b ∈ l := (List.mem_insertionSort r).mp (hab.subset (by simp))
  have hne : a ≠ b := by
    intro h
    subst h
    have : ([a, a] : List Nat).Nodup := hab.nodup hnd
    simp at this
  rcases Nat.lt_trichotomy a b with h | h | h
  · exact h
  · exact absurd h hne
  · exfalso
    have hsub : List.Sublist [b, a] l := pair_sublist_of_pairwise_lt hl hbmem hamem h
    have hms : List.Sublist [b, a] (l.insertionSort r) :=
      List.pair_sublist_insertionSort hba hsub
    exact hne (sublist_pair_antisymm hnd hab hms)

/-- The ascending index sort is a permutation of its input. -/
theorem sortIndicesAsc_perm (keys : List Int) (l : List Nat) :
    (sortIndicesAsc keys l).Perm l :=
  List.perm_insertionSort _ l

/-- The descending index sort is a permutation of its input. -/
theorem sortIndicesDesc_perm (keys : List Int) (l : List Nat) :
    (sortIndicesDesc keys l).Perm l :=
  List.perm_insertionSort _ l

/-- Stable ascending sort: keys ascend, and equal keys keep ascending
(original) index order when the input indices are strictly increasing. -/
theorem sortIndicesAsc_pairwise (keys : List Int) (l : List Nat)
    (hl : l.Pairwise (· < ·)) :
    (sortIndicesAsc keys l).Pairwise
      (fun a b => keys.getD a 0 < keys.getD b 0 ∨
        (keys.getD a 0 = keys.getD b 0 ∧ a < b)) := by
  haveI : IsTotal Nat (fun a b => keys.getD a 0 ≤ keys.getD b 0) :=
    ⟨fun a b => le_total _ _⟩
  haveI : IsTrans Nat (fun a b => keys.getD a 0 ≤ keys.getD b 0) :=
    ⟨fun _ _ _ h1 h2 => le_trans h1 h2⟩
  have h := insertionSort_pairwise_stable
    (fun a b => keys.getD a 0 ≤ keys.getD b 0) l hl
  unfold sortIndicesAsc
  refine h.imp ?_
  rintro a b ⟨hab, hba⟩
  rcases eq_or_lt_of_le hab with he | hlt
  · exact Or.inr ⟨he, hba (le_of_eq he.symm)⟩
  · exact Or.inl hlt

/-- Stable descending sort: keys descend, and equal keys keep ascending
(original) index order when the input indices are strictly increasing. -/
theorem sortIndicesDesc_pairwise (keys : List Int) (l : List Nat)
    (hl : l.Pairwise (· < ·)) :
    (sortIndicesDesc keys l).Pairwise
      (fun a b => keys.getD b 0 < keys.getD a 0 ∨
        (keys.getD a 0 = keys.getD b 0 ∧ a < b)) := by
  haveI : IsTotal Nat (fun a b => keys.getD b 0 ≤ keys.getD a 0) :=
    ⟨fun a b => le_total _ _⟩
  haveI : IsTrans Nat (fun a b => keys.getD b 0 ≤ keys.getD a 0) :=
    ⟨fun _ _ _ h1 h2 => le_trans h2 h1⟩
  have h := insertionSort_pairwise_stable
    (fun a b => keys.getD b 0 ≤ keys.getD a 0) l hl
  unfold sortIndicesDesc
  refine h.imp ?_
  rintro a b ⟨hab, hba⟩
  rcases eq_or_lt_of_le hab with he | hlt
  · exact Or.inr ⟨he.symm, hba (le_of_eq he.symm)⟩
  · exact Or.inl hlt

/-- Membership in the `BitVec` candidate list is exactly having a `true`
bit at that position. -/
theorem mem_trueIndices (bv : List Bool) (j : Nat) :
    (j ∈ (bv.enum.filter (fun p => p.2)).map (fun p => p.1)) ↔
      bv[j]? = some true := by
  simp only [List.mem_map, List.mem_filter]
  constructor
  · rintro ⟨⟨i, b⟩, ⟨hmem, hb⟩, hj⟩
    simp only at hb hj
    subst hj
    have := List.mem_enum_iff_getElem?.mp hmem
    simp only at this
    rw [this, hb]
  · intro h
    exact ⟨(j, true), ⟨List.mem_enum_iff_getElem?.mpr h, rfl⟩, rfl⟩

/-- The first components of `enumFrom` ascend strictly. -/
theorem pairwise_fst_lt_enumFrom {α : Type _} (l : List α) :
    ∀ s : Nat, (l.enumFrom s).Pairwise (fun p q => p.1 < q.1) := by
  induction l with
  | nil => intro s; simp
  | cons a t ih =>
    intro s
    rw [List.enumFrom_cons, List.pairwise_cons]
    refine ⟨?_, ih (s + 1)⟩
    rintro ⟨i, b⟩ hmem
    have := (List.mk_mem_enumFrom_iff_le_and_getElem?_sub).mp hmem
    simp only
    omega

/-- The `BitVec` candidate list is strictly increasing. -/
theorem pairwise_trueIndices (bv : List Bool) :
    ((bv.enum.filter (fun p => p.2)).map (fun p => p.1)).Pairwise (· < ·) := by
  rw [List.pairwise_map]
  apply List.Pairwise.filter
  exact pairwise_fst_lt_enumFrom bv 0

/-- Candidate computation never panics on a filter produced by
`deriveFilter`. -/
theorem candidateIndices_deriveFilter_isSome (tv : TypedVec) (n : Nat) :
    (candidateIndices (deriveFilter tv) n).isSome = true := by
  cases tv <;> rfl

/-! ### Claim C1 -/

/-- C1: for every integer column built via the factory with precomputed
bounds: `max - min ≤ 255` selects the 8-bit offset encoding,
`≤ 65535` the 16-bit one, `≤ 4294967295` the 32-bit one, and anything
larger plain unencoded 64-bit storage with no codec; in the encoded cases
each value `v` is stored as `v - min` and the codec carries
`offset = min`. -/
theorem adaptive_width_selection (name : String) (values : List Int) (min max : Int)
    (h1 : i64Min ≤ max - min) (h2 : max - min ≤ i64Max)
    (h3 : ∀ v ∈ values, min ≤ v ∧ v ≤ max) :
    (max - min ≤ 255 →
      IntegerColumn.new_boxed name values min max =
        some (Column.encoded name Width.U8 (values.map (fun v => (v - min).toNat))
          (IntegerOffsetCodec.new min) (some (0, max - min))))
    ∧ (255 < max - min → max - min ≤ 65535 →
      IntegerColumn.new_boxed name values min max =
        some (Column.encoded name Width.U16 (values.map (fun v => (v - min).toNat))
          (IntegerOffsetCodec.new min) (some (0, max - min))))
    ∧ (65535 < max - min → max - min ≤ 4294967295 →
      IntegerColumn.new_boxed name values min max =
        some (Column.encoded name Width.U32 (values.map (fun v => (v - min).toNat))
          (IntegerOffsetCodec.new min) (some (0, max - min))))
    ∧ (4294967295 < max - min →
      IntegerColumn.new_boxed name values min max =
        some (Column.plain name values (some (min, max)))) := by
  obtain ⟨c1, c2, c3, c4⟩ := new_boxed_width_cases name values min max h1 h2
  exact ⟨c1 h3, c2 h3, c3 h3, c4⟩

/-- Witness for C1: bounds (3, 5) give the 8-bit encoding with values
stored as offsets from 3. -/
theorem adaptive_width_selection_witness :
    IntegerColumn.new_boxed "c" [3, 5] 3 5 =
      some (Column.encoded "c" Width.U8 [0, 2]
        (IntegerOffsetCodec.new 3) (some (0, 2))) := by
  have h := (adaptive_width_selection "c" [3, 5] 3 5 (by decide) (by decide)
    (by decide)).1 (by decide)
  simpa using h

/-! ### Claim C2 -/

/-- C2: for the integer-offset codec with `offset = min` and any value
`v` in the column's logical range `[min, max]`, literal-encoding then
decoding yields `v` back: `encode_int` subtracts the offset and the
decode step of `unwrap_decode` adds it back. -/
theorem codec_round_trip (c : IntegerOffsetCodec) (min max v : Int)
    (hoff : c.offset = min)
    (hv1 : min ≤ v) (hv2 : v ≤ max) (hrange : max - min ≤ 4294967295)
    (hlo : i64Min ≤ min) (hhi : max ≤ i64Max) :
    ∃ e : Int, c.encode_int v = RawVal.Int e ∧ 0 ≤ e ∧ c.decodeVal e = v
      ∧ c.unwrap_decode [e.toNat] = [v] := by
  have hmin : -(2 ^ 63) ≤ min := by simpa [i64Min] using hlo
  have hmax : max ≤ 2 ^ 63 - 1 := by simpa [i64Max] using hhi
  have hw1 : wrap64 (v - c.offset) = v - c.offset := by
    apply wrap64_of_bounds <;> omega
  have hw2 : wrap64 v = v := by
    apply wrap64_of_bounds <;> omega
  refine ⟨v - c.offset, ?_, by omega, ?_, ?_⟩
  · simp [IntegerOffsetCodec.encode_int, hw1]
  · simp [IntegerOffsetCodec.decodeVal, hw2]
  · have hnn : 0 ≤ v - c.offset := by omega
    simp [IntegerOffsetCodec.unwrap_decode, IntegerOffsetCodec.decodeVal,
      Int.toNat_of_nonneg hnn, hw2]

/-- Witness for C2 at offset 3 and `v = 4` in range `[3, 5]`. -/
theorem codec_round_trip_witness :
    ∃ e : Int, (IntegerOffsetCodec.new 3).encode_int 4 = RawVal.Int e ∧ 0 ≤ e
      ∧ (IntegerOffsetCodec.new 3).decodeVal e = 4
      ∧ (IntegerOffsetCodec.new 3).unwrap_decode [e.toNat] = [4] :=
  codec_round_trip (IntegerOffsetCodec.new 3) 3 5 4 rfl (by decide) (by decide)
    (by decide) (by decide) (by decide)

/-! ### Claim C3 -/

/-- C3: `is_summation_preserving` is true exactly when the codec offset
is zero, and for a zero-offset codec the sum of the decoded values equals
the sum of the encoded values. -/
theorem summation_preserving_iff :
    (∀ c : IntegerOffsetCodec, c.is_summation_preserving = true ↔ c.offset = 0)
    ∧ (∀ (c : IntegerOffsetCodec) (data : List Nat), c.offset = 0 →
        (∀ x ∈ data, (x : Int) ≤ i64Max) →
        (c.unwrap_decode data).sum = (data.map (fun (n : Nat) => (n : Int))).sum) := by
  constructor
  · intro c
    simp [IntegerOffsetCodec.is_summation_preserving]
  · intro c data hc hd
    induction data with
    | nil => rfl
    | cons a t ih =>
      have ha : (a : Int) ≤ i64Max := hd a (List.mem_cons_self a t)
      have hm : i64Max < 2 ^ 63 := by decide
      have hnn : (0 : Int) ≤ (a : Int) := Int.natCast_nonneg a
      have hda : wrap64 ((a : Int) + c.offset) = (a : Int) := by
        rw [hc, add_zero]
        apply wrap64_of_bounds <;> omega
      have ht := ih (fun x hx => hd x (List.mem_cons_of_mem a hx))
      simp only [IntegerOffsetCodec.unwrap_decode, IntegerOffsetCodec.decodeVal,
        List.map_cons, List.sum_cons] at ht ⊢
      rw [hda, ht]

/-- Witness for C3 at offset 0 with encoded data `[1, 2]`. -/
theorem summation_preserving_iff_witness :
    (IntegerOffsetCodec.new 0).is_summation_preserving = true
    ∧ ((IntegerOffsetCodec.new 0).unwrap_decode [1, 2]).sum =
        ([1, 2].map (fun n : Nat => (n : Int))).sum :=
  ⟨(summation_preserving_iff.1 (IntegerOffsetCodec.new 0)).mpr rfl,
   summation_preserving_iff.2 (IntegerOffsetCodec.new 0) [1, 2] rfl (by decide)⟩

/-! ### Claim C7 -/

/-- Counterexample for C7: the codec with offset 10 literal-encodes the
in-domain logical value 5 to the raw integer `-5`, which lies outside
every unsigned encoded width, and no error of any kind is signalled (the
result is an ordinary `RawVal::Int`). -/
theorem encode_int_no_range_check_cex :
    (IntegerOffsetCodec.new 10).encode_int 5 = RawVal.Int (-5)
    ∧ ((-5 : Int) < 0)
    ∧ Width.U8.fromI64 (-5) = none
    ∧ Width.U16.fromI64 (-5) = none
    ∧ Width.U32.fromI64 (-5) = none
    ∧ ((IntegerOffsetCodec.new 10).encode_int 5).isInt = true := by
  refine ⟨?_, by decide, by decide, by decide, by decide, ?_⟩ <;> decide

/-- C7 as amended: `encode_int` performs no range check at all — for any
codec and literal it returns `RawVal::Int(val - offset)` (with 64-bit
wrap-around), even when the encoded value lies outside the codec's
representable encoded domain; no error is ever produced. -/
theorem encode_int_unchecked (c : IntegerOffsetCodec) (v : Int)
    (h1 : i64Min ≤ v - c.offset) (h2 : v - c.offset ≤ i64Max) :
    c.encode_int v = RawVal.Int (v - c.offset)
    ∧ (c.encode_int v).isInt = true := by
  have hw : wrap64 (v - c.offset) = v - c.offset := by
    simp [i64Min] at h1
    have : i64Max < 2 ^ 63 := by decide
    apply wrap64_of_bounds <;> omega
  constructor
  · simp [IntegerOffsetCodec.encode_int, hw]
  · simp [IntegerOffsetCodec.encode_int, RawVal.isInt]

/-- Witness for the amended C7 at offset 10 and literal 5 (an
out-of-domain encoding, produced without any error). -/
theorem encode_int_unchecked_witness :
    (IntegerOffsetCodec.new 10).encode_int 5 = RawVal.Int (-5)
    ∧ ((IntegerOffsetCodec.new 10).encode_int 5).isInt = true := by
  have h := encode_int_unchecked (IntegerOffsetCodec.new 10) 5 (by decide) (by decide)
  simpa using h

/-! ### Claim C10 -/

/-- Counterexample for C10: with bounds `(0, 2^36)` the factory selects
plain 64-bit storage, so the out-of-range value `-5 < min` is stored
unchanged and construction does NOT panic, contradicting the claim that
construction panics whenever some value is below `min`. -/
theorem new_boxed_plain_no_panic_cex :
    IntegerColumn.new_boxed "c" [-5] 0 68719476736 =
      some (Column.plain "c" [-5] (some (0, 68719476736)))
    ∧ ((-5 : Int) < 0) := by
  constructor <;> decide

/-- C10 as amended: under the precondition `min ≤ v ≤ max` for every
value, `new_boxed` never panics; when the precondition is violated,
construction panics only in the encoded branches
(`max - min ≤ u32::MAX`) where a value fails the width check — in the
plain 64-bit branch values are stored unchecked and no panic occurs. -/
theorem new_boxed_panic_amended (name : String) (values : List Int) (min max : Int)
    (h1 : i64Min ≤ max - min) (h2 : max - min ≤ i64Max) :
    ((∀ v ∈ values, min ≤ v ∧ v ≤ max) →
        (IntegerColumn.new_boxed name values min max).isSome = true)
    ∧ (max - min ≤ 4294967295 →
        (∃ v ∈ values, (-(2 ^ 63) < v - min ∧ v - min < 0) ∨
            (4294967295 < v - min ∧ v - min < 2 ^ 63)) →
        IntegerColumn.new_boxed name values min max = none)
    ∧ (4294967295 < max - min →
        (IntegerColumn.new_boxed name values min max).isSome = true) := by
  have hwr : wrap64 (max - min) = max - min := by
    simp only [i64Min] at h1
    have : i64Max < 2 ^ 63 := by decide
    apply wrap64_of_bounds <;> omega
  obtain ⟨hcase1, hcase2, hcase3, hcase4⟩ := new_boxed_width_cases name values min max h1 h2
  refine ⟨?_, ?_, ?_⟩
  · intro hpre
    rcases le_or_lt (max - min) 255 with hb1 | hb1
    · rw [hcase1 hpre hb1]; rfl
    rcases le_or_lt (max - min) 65535 with hb2 | hb2
    · rw [hcase2 hpre hb1 hb2]; rfl
    rcases le_or_lt (max - min) 4294967295 with hb3 | hb3
    · rw [hcase3 hpre hb2 hb3]; rfl
    · rw [hcase4 hb3]; rfl
  · rintro hb ⟨v, hvmem, hcase⟩
    have hwv : wrap64 (v - min) = v - min := by
      rcases hcase with ⟨hl, hr⟩ | ⟨hl, hr⟩ <;> (apply wrap64_of_bounds <;> omega)
    have hbad : ∀ w : Width, ¬(0 ≤ wrap64 (v - min) ∧ wrap64 (v - min) ≤ w.maxVal) := by
      intro w
      have hwm : w.maxVal ≤ 4294967295 := by cases w <;> decide
      rw [hwv]
      rintro ⟨hA, hB⟩
      rcases hcase with ⟨hl, hr⟩ | ⟨hl, hr⟩ <;> omega
    simp only [IntegerColumn.new_boxed, hwr]
    rcases le_or_lt (max - min) 255 with hb1 | hb1
    · rw [if_pos hb1, encode_eq_none hvmem (hbad Width.U8)]
      rfl
    rw [if_neg (by omega : ¬ max - min ≤ 255)]
    rcases le_or_lt (max - min) 65535 with hb2 | hb2
    · rw [if_pos hb2, encode_eq_none hvmem (hbad Width.U16)]
      rfl
    rw [if_neg (by omega : ¬ max - min ≤ 65535), if_pos hb,
      encode_eq_none hvmem (hbad Width.U32)]
    rfl
  · intro hb
    rw [hcase4 hb]
    rfl

/-- Witness for the amended C10: an in-range build succeeds, and a build
whose value underflows the selected 8-bit width panics. -/
theorem new_boxed_panic_amended_witness :
    (IntegerColumn.new_boxed "c" [3, 5] 3 5).isSome = true
    ∧ IntegerColumn.new_boxed "c" [-3] 0 10 = none :=
  ⟨(new_boxed_panic_amended "c" [3, 5] 3 5 (by decide) (by decide)).1 (by decide),
   (new_boxed_panic_amended "c" [-3] 0 10 (by decide) (by decide)).2.1 (by decide)
     ⟨-3, by decide, Or.inl (by decide)⟩⟩

/-! ### Claim C4 -/

/-- C4: in `run` with an order-by index set, the candidate positions are
those included by a `BitVec` filter (or the full row range under no
restriction), they are stably sorted ascending or descending per
`order_desc` over the sort column's order-preserving representation,
truncated to at most `limit + offset` entries, and the resulting position
list becomes an `Indices` filter used for the compilation of every
select expression. -/
theorem run_order_by_sorts_truncates_replaces
    (eval : EvalFn) (q : Query) (i : Nat) (sexpr : Expr)
    (filt : Filter) (keys : List Int) (cands : List Nat) (sorted : List Nat)
    (h1 : q.order_by_index = some i)
    (h2 : q.select[i]? = some sexpr)
    (hf : filt = deriveFilter (eval q.filter Filter.None))
    (hk : keys = orderPreservingTv (eval sexpr filt))
    (hc : candidateIndices filt keys.length = some cands)
    (hs : sorted = if q.order_desc then sortIndicesDesc keys cands
          else sortIndicesAsc keys cands) :
    cands.Pairwise (· < ·)
    ∧ (∀ bv, filt = Filter.BitVec bv → ∀ j, (j ∈ cands ↔ bv[j]? = some true))
    ∧ (filt = Filter.None → cands = List.range keys.length)
    ∧ sorted.Perm cands
    ∧ (q.order_desc = false →
        sorted.Pairwise (fun a b => keys.getD a 0 < keys.getD b 0 ∨
          (keys.getD a 0 = keys.getD b 0 ∧ a < b)))
    ∧ (q.order_desc = true →
        sorted.Pairwise (fun a b => keys.getD b 0 < keys.getD a 0 ∨
          (keys.getD a 0 = keys.getD b 0 ∧ a < b)))
    ∧ (sorted.take (q.limit.limit + q.limit.offset)).length ≤
        q.limit.limit + q.limit.offset
    ∧ q.run eval =
        some { group_by := none
               sort_by := some i
               select := q.select.map (fun e => decodeTv (eval e
                 (Filter.Indices (sorted.take (q.limit.limit + q.limit.offset)))))
               aggregators := []
               level := 0
               batch_count := 1 } := by
  have hpw : cands.Pairwise (· < ·) := by
    rcases hfc : filt with _ | bv | idx
    · rw [hfc] at hc
      simp only [candidateIndices, Option.some.injEq] at hc
      rw [← hc]
      exact List.pairwise_lt_range _
    · rw [hfc] at hc
      simp only [candidateIndices, Option.some.injEq] at hc
      rw [← hc]
      exact pairwise_trueIndices bv
    · rw [hfc] at hc
      simp only [candidateIndices] at hc
      exact Option.noConfusion hc
  refine ⟨hpw, ?_, ?_, ?_, ?_, ?_, ?_, ?_⟩
  · intro bv hbv j
    rw [hbv] at hc
    simp only [candidateIndices, Option.some.injEq] at hc
    rw [← hc]
    exact mem_trueIndices bv j
  · intro hnone
    rw [hnone] at hc
    simp only [candidateIndices, Option.some.injEq] at hc
    exact hc.symm
  · cases hdesc : q.order_desc <;> simp only [hdesc, if_true, if_false, Bool.false_eq_true] at hs <;> rw [hs]
    · exact sortIndicesAsc_perm keys cands
    · exact sortIndicesDesc_perm keys cands
  · intro hdesc
    rw [hdesc] at hs
    simp only [Bool.false_eq_true, if_false] at hs
    rw [hs]
    exact sortIndicesAsc_pairwise keys cands hpw
  · intro hdesc
    rw [hdesc] at hs
    simp only [if_true] at hs
    rw [hs]
    exact sortIndicesDesc_pairwise keys cands hpw
  · exact List.length_take_le _ _
  · subst hf hk hs
    simp only [Query.run, Query.runWith, Query.finalFilter, h1, h2, Option.bind_eq_bind,
      Option.some_bind, hc, Option.map_some]
    rfl

/-- Witness for C4 on the concrete query
`SELECT age ORDER BY age DESC LIMIT 2` over `age = [10, 20, 30, 40]`:
candidates `[0, 1, 2, 3]`, descending stable sort `[3, 2, 1, 0]`,
truncation `[3, 2]`, result rows `[40, 30]`. -/
theorem run_order_by_witness :
    ([0, 1, 2, 3] : List Nat).Pairwise (· < ·)
    ∧ (∀ bv, Filter.None = Filter.BitVec bv →
        ∀ j, (j ∈ ([0, 1, 2, 3] : List Nat) ↔ bv[j]? = some true))
    ∧ (Filter.None = Filter.None →
        ([0, 1, 2, 3] : List Nat) = List.range ([10, 20, 30, 40] : List Int).length)
    ∧ ([3, 2, 1, 0] : List Nat).Perm [0, 1, 2, 3]
    ∧ (qOrderDesc.order_desc = false →
        ([3, 2, 1, 0] : List Nat).Pairwise (fun a b =>
          ([10, 20, 30, 40] : List Int).getD a 0 < ([10, 20, 30, 40] : List Int).getD b 0 ∨
          (([10, 20, 30, 40] : List Int).getD a 0 = ([10, 20, 30, 40] : List Int).getD b 0 ∧
            a < b)))
    ∧ (qOrderDesc.order_desc = true →
        ([3, 2, 1, 0] : List Nat).Pairwise (fun a b =>
          ([10, 20, 30, 40] : List Int).getD b 0 < ([10, 20, 30, 40] : List Int).getD a 0 ∨
          (([10, 20, 30, 40] : List Int).getD a 0 = ([10, 20, 30, 40] : List Int).getD b 0 ∧
            a < b)))
    ∧ (([3, 2, 1, 0] : List Nat).take (qOrderDesc.limit.limit + qOrderDesc.limit.offset)).length ≤
        qOrderDesc.limit.limit + qOrderDesc.limit.offset
    ∧ qOrderDesc.run evalAge =
        some { group_by := none
               sort_by := some 0
               select := qOrderDesc.select.map (fun e => decodeTv (evalAge e
                 (Filter.Indices (([3, 2, 1, 0] : List Nat).take
                   (qOrderDesc.limit.limit + qOrderDesc.limit.offset)))))
               aggregators := []
               level := 0
               batch_count := 1 } :=
  run_order_by_sorts_truncates_replaces evalAge qOrderDesc 0 (Expr.ColName "age")
    Filter.None [10, 20, 30, 40] [0, 1, 2, 3] [3, 2, 1, 0]
    rfl rfl rfl rfl (by decide) (by decide)

/-! ### Claim C5 -/

/-- C5: in both `run` and `run_aggregate`, a boolean filter-execution
result becomes a `BitVec` filter; every other result kind degrades to no
restriction (`Filter::None`) and execution proceeds without signalling
any error (for `run` without an order-by clause the result is always
produced; `run_aggregate` is total). -/
theorem filter_boolean_or_degrade :
    (∀ bs, deriveFilter (TypedVec.Boolean bs) = Filter.BitVec bs)
    ∧ (∀ tv : TypedVec, tv.isBoolean = false → deriveFilter tv = Filter.None)
    ∧ (∀ (eval : EvalFn) (q : Query), (eval q.filter Filter.None).isBoolean = false →
        q.run eval = q.runWith eval Filter.None)
    ∧ (∀ (eval : EvalFn) (evalGK : GroupKeyFn) (aggEval : AggEvalFn)
        (groupingFn : GroupingFn) (q : Query),
        (eval q.filter Filter.None).isBoolean = false →
        q.run_aggregate eval evalGK aggEval groupingFn =
          q.runAggregateWith evalGK aggEval groupingFn Filter.None)
    ∧ (∀ (eval : EvalFn) (q : Query), q.order_by_index = none →
        (q.run eval).isSome = true) := by
  have hderive : ∀ tv : TypedVec, tv.isBoolean = false → deriveFilter tv = Filter.None := by
    intro tv h
    cases tv with
    | Boolean bs => simp [TypedVec.isBoolean] at h
    | Ints xs => rfl
    | Empty => rfl
  refine ⟨fun bs => rfl, hderive, ?_, ?_, ?_⟩
  · intro eval q h
    unfold Query.run
    rw [hderive _ h]
  · intro eval evalGK aggEval groupingFn q h
    unfold Query.run_aggregate
    rw [hderive _ h]
  · intro eval q h
    simp [Query.run, Query.runWith, Query.finalFilter, h]

/-- Witness for C5 on concrete inputs: a boolean mask becomes a `BitVec`
filter, an integer result degrades to no restriction, the concrete flat
query runs as if unfiltered and completes, and so does the concrete
aggregation query. -/
theorem filter_boolean_or_degrade_witness :
    deriveFilter (TypedVec.Boolean [true, false]) = Filter.BitVec [true, false]
    ∧ deriveFilter (TypedVec.Ints [7]) = Filter.None
    ∧ qFlat.run evalAge = qFlat.runWith evalAge Filter.None
    ∧ qAggEx.run_aggregate evalAge evalGKEx aggEvalEx groupingEx =
        qAggEx.runAggregateWith evalGKEx aggEvalEx groupingEx Filter.None
    ∧ (qFlat.run evalAge).isSome = true :=
  ⟨filter_boolean_or_degrade.1 [true, false],
   filter_boolean_or_degrade.2.1 (TypedVec.Ints [7]) rfl,
   filter_boolean_or_degrade.2.2.1 evalAge qFlat rfl,
   filter_boolean_or_degrade.2.2.2.1 evalAge evalGKEx aggEvalEx groupingEx qAggEx rfl,
   filter_boolean_or_degrade.2.2.2.2 evalAge qFlat rfl⟩

/-! ### Claim C6 -/

/-- C6: in `run_aggregate`, one ascending sort permutation is computed
over the order-preserving view of the distinct group values, and that
same permutation gathers both the emitted group-by column and every
aggregate's per-group output, so every emitted column is ordered by
ascending group key (the group-by column is sorted ascending, and each
output has one entry per permutation position). -/
theorem run_aggregate_single_sort_permutation
    (eval : EvalFn) (evalGK : GroupKeyFn) (aggEval : AggEvalFn) (groupingFn : GroupingFn)
    (q : Query) (filt : Filter) (groupIds : List Nat) (max_index : Nat)
    (groupsTv : TypedVec) (groups : List Int) (gsi : List Nat)
    (hf : filt = deriveFilter (eval q.filter Filter.None))
    (hg : groupingFn (evalGK q.select filt) = (groupIds, max_index, groupsTv))
    (hgr : groups = orderPreservingTv groupsTv)
    (hgsi : gsi = sortIndicesAsc groups (List.range groups.length)) :
    q.run_aggregate eval evalGK aggEval groupingFn =
      { group_by := some (indexDecodeL groups gsi)
        sort_by := none
        select := q.aggregate.map (fun p =>
          indexDecodeTv (aggEval p.1 p.2 groupIds max_index filt) gsi)
        aggregators := q.aggregate.map (fun p => p.1)
        level := 0
        batch_count := 1 }
    ∧ gsi.Perm (List.range groups.length)
    ∧ (indexDecodeL groups gsi).Pairwise (· ≤ ·)
    ∧ (∀ col ∈ (q.run_aggregate eval evalGK aggEval groupingFn).select,
        col.length = gsi.length) := by
  subst hf hgr hgsi
  have hrun : q.run_aggregate eval evalGK aggEval groupingFn =
      { group_by := some (indexDecodeL (orderPreservingTv groupsTv)
          (sortIndicesAsc (orderPreservingTv groupsTv)
            (List.range (orderPreservingTv groupsTv).length)))
        sort_by := none
        select := q.aggregate.map (fun p =>
          indexDecodeTv (aggEval p.1 p.2 groupIds max_index
            (deriveFilter (eval q.filter Filter.None)))
            (sortIndicesAsc (orderPreservingTv groupsTv)
              (List.range (orderPreservingTv groupsTv).length)))
        aggregators := q.aggregate.map (fun p => p.1)
        level := 0
        batch_count := 1 } := by
    unfold Query.run_aggregate Query.runAggregateWith
    simp only [hg]
  refine ⟨hrun, sortIndicesAsc_perm _ _, ?_, ?_⟩
  · haveI : IsTotal Nat (fun a b => (orderPreservingTv groupsTv).getD a 0 ≤
        (orderPreservingTv groupsTv).getD b 0) := ⟨fun a b => le_total _ _⟩
    haveI : IsTrans Nat (fun a b => (orderPreservingTv groupsTv).getD a 0 ≤
        (orderPreservingTv groupsTv).getD b 0) := ⟨fun _ _ _ h1 h2 => le_trans h1 h2⟩
    have hsorted := List.sorted_insertionSort
      (fun a b => (orderPreservingTv groupsTv).getD a 0 ≤
        (orderPreservingTv groupsTv).getD b 0)
      (List.range (orderPreservingTv groupsTv).length)
    unfold indexDecodeL sortIndicesAsc
    rw [List.pairwise_map]
    exact hsorted
  · intro col hcol
    rw [hrun] at hcol
    simp only [List.mem_map] at hcol
    obtain ⟨p, hp, hcoleq⟩ := hcol
    rw [← hcoleq]
    simp [indexDecodeTv, indexDecodeL]

/-- Witness for C6 on the concrete aggregation query: distinct keys
`[5, 3]` sort by permutation `[1, 0]`, the group-by column becomes
`[3, 5]` and the aggregate output `[4, 2]` becomes `[2, 4]`. -/
theorem run_aggregate_single_sort_permutation_witness :
    qAggEx.run_aggregate evalAge evalGKEx aggEvalEx groupingEx =
      { group_by := some (indexDecodeL [5, 3] [1, 0])
        sort_by := none
        select := qAggEx.aggregate.map (fun p =>
          indexDecodeTv (aggEvalEx p.1 p.2 [0, 1, 0] 1 Filter.None) [1, 0])
        aggregators := qAggEx.aggregate.map (fun p => p.1)
        level := 0
        batch_count := 1 }
    ∧ ([1, 0] : List Nat).Perm (List.range ([5, 3] : List Int).length)
    ∧ (indexDecodeL [5, 3] [1, 0]).Pairwise (· ≤ ·)
    ∧ (∀ col ∈ (qAggEx.run_aggregate evalAge evalGKEx aggEvalEx groupingEx).select,
        col.length = ([1, 0] : List Nat).length) := by
  have h := run_aggregate_single_sort_permutation evalAge evalGKEx aggEvalEx groupingEx
    qAggEx Filter.None [0, 1, 0] 1 (TypedVec.Ints [5, 3]) [5, 3] [1, 0]
    rfl rfl rfl (by decide)
  exact h

/-! ### Claim C9 -/

/-- C9: during order-by candidate computation, the `Indices` filter
variant hits the `panic!` branch (modelled as `none`, aborting the
query), while every filter produced by step 1's `deriveFilter` (only
`BitVec` or `None`) never reaches that branch, so under `run`'s own
construction the abort is never taken and `run` succeeds whenever the
order-by index is in bounds. -/
theorem order_by_impossible_filter_panics :
    (∀ (idx : List Nat) (n : Nat), candidateIndices (Filter.Indices idx) n = none)
    ∧ (∀ (tv : TypedVec) (n : Nat), (candidateIndices (deriveFilter tv) n).isSome = true)
    ∧ (∀ (eval : EvalFn) (q : Query) (idx : List Nat) (i : Nat) (sexpr : Expr),
        q.order_by_index = some i → q.select[i]? = some sexpr →
        q.runWith eval (Filter.Indices idx) = none)
    ∧ (∀ (eval : EvalFn) (q : Query) (i : Nat) (sexpr : Expr),
        q.order_by_index = some i → q.select[i]? = some sexpr →
        (q.run eval).isSome = true) := by
  refine ⟨fun idx n => rfl, candidateIndices_deriveFilter_isSome, ?_, ?_⟩
  · intro eval q idx i sexpr h1 h2
    simp [Query.runWith, Query.finalFilter, h1, h2, candidateIndices]
  · intro eval q i sexpr h1 h2
    unfold Query.run Query.runWith Query.finalFilter
    rw [h1]
    cases htv : eval q.filter Filter.None <;> simp [h2, deriveFilter, candidateIndices]

/-- Witness for C9: on the concrete order-by query, forcing an `Indices`
filter aborts, while the run itself succeeds. -/
theorem order_by_impossible_filter_panics_witness :
    qOrderDesc.runWith evalAge (Filter.Indices [0]) = none
    ∧ (qOrderDesc.run evalAge).isSome = true :=
  ⟨order_by_impossible_filter_panics.2.2.1 evalAge qOrderDesc [0] 0
      (Expr.ColName "age") rfl rfl,
   order_by_impossible_filter_panics.2.2.2 evalAge qOrderDesc 0
      (Expr.ColName "age") rfl rfl⟩

/-! ### Claim C8 -/

/-- Casting a natural number to an integer does not change its decimal
rendering. -/
theorem toString_intCast (n : Nat) : toString ((n : Int)) = toString n := rfl

/-- `anonCount` skips a column reference at the head. -/
theorem anonCount_cons_col (e : Expr) (l : List Expr) (h : e.isColName = true) :
    anonCount (e :: l) = anonCount l := by
  simp [anonCount, List.filter_cons, h]

/-- `anonCount` counts an anonymous expression at the head. -/
theorem anonCount_cons_anon (e : Expr) (l : List Expr) (h : e.isColName = false) :
    anonCount (e :: l) = anonCount l + 1 := by
  simp [anonCount, List.filter_cons, h]

/-- `selectColNames` yields one name per expression. -/
theorem selectColNames_length : ∀ (es : List Expr) (k : Int),
    (selectColNames es k).length = es.length := by
  intro es
  induction es with
  | nil => intro k; rfl
  | cons e t ih =>
    intro k
    cases e with
    | ColName n => simp [selectColNames, ih]
    | Const v => simp [selectColNames, ih]
    | Func ft l r => simp [selectColNames, ih]

/-- `aggColNames` yields one name per aggregate pair. -/
theorem aggColNames_length : ∀ (ags : List (Aggregator × Expr)) (k : Int),
    (aggColNames ags k).length = ags.length := by
  intro ags
  induction ags with
  | nil => intro k; rfl
  | cons p t ih =>
    intro k
    obtain ⟨a, e⟩ := p
    cases a <;> simp [aggColNames, ih]

/-- `getD` on an append stays in the left part for small indices. -/
theorem getD_append_left {α : Type _} (l l2 : List α) (d : α) (i : Nat)
    (h : i < l.length) :
    (l ++ l2).getD i d = l.getD i d := by
  simp [List.getD_eq_getElem?_getD, List.getElem?_append_left h]

/-- `getD` on an append reaches the right part past the left length. -/
theorem getD_append_right {α : Type _} (l l2 : List α) (d : α) (i : Nat)
    (h : l.length ≤ i) :
    (l ++ l2).getD i d = l2.getD (i - l.length) d := by
  simp [List.getD_eq_getElem?_getD, List.getElem?_append_right h]

/-- Positional characterization of `selectColNames` for an arbitrary
starting counter. -/
theorem selectColNames_getD : ∀ (es : List Expr) (k : Int) (i : Nat), i < es.length →
    (selectColNames es k).getD i "" =
      (match es.getD i (Expr.Const RawVal.Null) with
       | Expr.ColName n => n
       | _ => "col_" ++ toString (k + 1 + (anonCount (es.take i) : Int))) := by
  intro es
  induction es with
  | nil =>
    intro k i h
    simp at h
  | cons e t ih =>
    intro k i h
    cases i with
    | zero =>
      cases e with
      | ColName n => simp [selectColNames]
      | Const v => simp [selectColNames, anonCount]
      | Func ft l r => simp [selectColNames, anonCount]
    | succ j =>
      have hj : j < t.length := by simpa using h
      cases e with
      | ColName n =>
        have h1 : (selectColNames (Expr.ColName n :: t) k).getD (j + 1) "" =
            (selectColNames t k).getD j "" := by
          simp [selectColNames]
        rw [h1, ih k j hj, List.getD_cons_succ, List.take_succ_cons,
          anonCount_cons_col (Expr.ColName n) (t.take j) rfl]
      | Const v =>
        have h1 : (selectColNames (Expr.Const v :: t) k).getD (j + 1) "" =
            (selectColNames t (k + 1)).getD j "" := by
          simp [selectColNames]
        rw [h1, ih (k + 1) j hj, List.getD_cons_succ, List.take_succ_cons,
          anonCount_cons_anon (Expr.Const v) (t.take j) rfl]
        have harith : (k + 1) + 1 + (anonCount (t.take j) : Int) =
            k + 1 + ((anonCount (t.take j) + 1 : Nat) : Int) := by
          push_cast
          ring
        rw [harith]
      | Func ft l r =>
        have h1 : (selectColNames (Expr.Func ft l r :: t) k).getD (j + 1) "" =
            (selectColNames t (k + 1)).getD j "" := by
          simp [selectColNames]
        rw [h1, ih (k + 1) j hj, List.getD_cons_succ, List.take_succ_cons,
          anonCount_cons_anon (Expr.Func ft l r) (t.take j) rfl]
        have harith : (k + 1) + 1 + (anonCount (t.take j) : Int) =
            k + 1 + ((anonCount (t.take j) + 1 : Nat) : Int) := by
          push_cast
          ring
        rw [harith]

/-- Positional characterization of `aggColNames` for an arbitrary
starting counter. -/
theorem aggColNames_getD : ∀ (ags : List (Aggregator × Expr)) (k : Int) (j : Nat),
    j < ags.length →
    (aggColNames ags k).getD j "" =
      (match (ags.getD j (Aggregator.Count, Expr.Const RawVal.Null)).1 with
       | Aggregator.Count => "count_" ++ toString (k + 1 + (j : Int))
       | Aggregator.Sum => "sum_" ++ toString (k + 1 + (j : Int))) := by
  intro ags
  induction ags with
  | nil =>
    intro k j h
    simp at h
  | cons p t ih =>
    intro k j h
    obtain ⟨a, e⟩ := p
    cases j with
    | zero => cases a <;> simp [aggColNames]
    | succ j =>
      have hj : j < t.length := by simpa using h
      have h1 : (aggColNames ((a, e) :: t) k).getD (j + 1) "" =
          (aggColNames t (k + 1)).getD j "" := by
        cases a <;> simp [aggColNames]
      rw [h1, ih (k + 1) j hj, List.getD_cons_succ]
      have harith : (k + 1) + 1 + (j : Int) = k + 1 + ((j + 1 : Nat) : Int) := by
        push_cast
        ring
      rw [harith]

/-- Counterexample for C8: on the spec's example query the actual result
is `["a", "col_0", "b", "count_0", "sum_1"]` — the aggregate counter is
incremented once per aggregate pair, so the second aggregate is numbered
1, not 0 as the claim's example asserts. -/
theorem result_column_names_example_cex :
    qNames.result_column_names = ["a", "col_0", "b", "count_0", "sum_1"]
    ∧ qNames.result_column_names ≠ ["a", "col_0", "b", "count_0", "sum_0"] := by
  constructor <;> decide

/-- C8 as amended: `result_column_names` yields one name per select
expression followed by one per aggregate pair; a plain column reference
keeps its name, any other select expression receives `col_<k>` where `k`
counts only the anonymous select expressions before it, and the `j`-th
aggregate pair receives `count_<j>` or `sum_<j>` from its own zero-based
counter incremented once per pair; on the spec's example the result is
`["a", "col_0", "b", "count_0", "sum_1"]` (`sum_1`, not the claimed
`sum_0`). -/
theorem result_column_names_spec (q : Query) :
    q.result_column_names.length = q.select.length + q.aggregate.length
    ∧ (∀ i, i < q.select.length →
        q.result_column_names.getD i "" =
          (match q.select.getD i (Expr.Const RawVal.Null) with
           | Expr.ColName n => n
           | _ => "col_" ++ toString (anonCount (q.select.take i))))
    ∧ (∀ j, j < q.aggregate.length →
        q.result_column_names.getD (q.select.length + j) "" =
          (match (q.aggregate.getD j (Aggregator.Count, Expr.Const RawVal.Null)).1 with
           | Aggregator.Count => "count_" ++ toString j
           | Aggregator.Sum => "sum_" ++ toString j))
    ∧ qNames.result_column_names = ["a", "col_0", "b", "count_0", "sum_1"] := by
  refine ⟨?_, ?_, ?_, by decide⟩
  · unfold Query.result_column_names
    rw [List.length_append, selectColNames_length, aggColNames_length]
  · intro i hi
    unfold Query.result_column_names
    rw [getD_append_left _ _ _ _ (by rw [selectColNames_length]; exact hi),
      selectColNames_getD q.select (-1) i hi]
    have harith : (-1 : Int) + 1 + (anonCount (q.select.take i) : Int) =
        ((anonCount (q.select.take i) : Nat) : Int) := by
      push_cast
      ring
    rw [harith, toString_intCast]
  · intro j hj
    unfold Query.result_column_names
    rw [getD_append_right _ _ _ _ (by rw [selectColNames_length]; omega)]
    rw [selectColNames_length]
    have hidx : q.select.length + j - q.select.length = j := by omega
    rw [hidx, aggColNames_getD q.aggregate (-1) j hj]
    have harith : (-1 : Int) + 1 + (j : Int) = ((j : Nat) : Int) := by
      push_cast
      ring
    rw [harith, toString_intCast]

/-- Witness for C8: the spec's naming example, plus positional reads. -/
theorem result_column_names_spec_witness :
    qNames.result_column_names.length = qNames.select.length + qNames.aggregate.length
    ∧ qNames.result_column_names.getD 1 "" = "col_0"
    ∧ qNames.result_column_names.getD 3 "" = "count_0"
    ∧ qNames.result_column_names = ["a", "col_0", "b", "count_0", "sum_1"] := by
  have h := result_column_names_spec qNames
  refine ⟨h.1, ?_, ?_, h.2.2.2⟩
  · have := h.2.1 1 (by decide)
    simpa using this
  · have := h.2.2.1 0 (by decide)
    simpa using this

end LocustDB
